import Mathlib

/-!
# Verification of the `alias` crate (huonw/alias)

The crate exposes two functions:

* `one : &mut T -> &Cell<T>` — reinterprets exclusive storage holding a
  single `T : Copy` value as a shared `std::cell::Cell<T>` over the same
  storage (`mem::transmute`).
* `slice : &mut [T] -> &[Cell<T>]` — the same reinterpretation applied to a
  contiguous sequence, element by element.

Shallow embedding: storage for `one` is a single value, storage for `slice`
is a `List`.  A `Cell` wraps the storage it was transmuted from; since every
shared reference produced by copying the returned reference points at the
same storage, all aliases dereference to the same cell state.  Aliases are
modelled as identifiers (`Alias := Nat`) which the semantics of `get`/`set`
ignore — exactly as the machine ignores which copy of the pointer performed
a load or store.  Rust slice indexing `y[i]` is bounds checked and panics on
an out-of-range index before touching memory; this is modelled as `Except`
with a `RangeError` carrying the offending index and the length, and a panic
leaves the storage in the state it had before the failed access.
-/

namespace AliasCrate

/-- Alias identifiers: which copy of the shared reference performs an
access.  All copies point at the same storage, so the semantics of the
operations do not depend on this argument. -/
abbrev Alias := Nat

/-- Model of `std::cell::Cell<T>`: storage of one value of `T`, read and
written by bitwise copy through any shared reference. -/
structure Cell (α : Type) where
  value : α
  deriving Repr, DecidableEq

/-- `Cell::get` performed through alias `a`: returns a bitwise copy of the
current contents.  Every alias reads the same storage. -/
def Cell.getVia (c : Cell α) (_a : Alias) : α := c.value

/-- `Cell::set` performed through alias `a`: overwrites the contents with a
bitwise copy of `v`.  Every alias writes the same storage. -/
def Cell.setVia (_c : Cell α) (_a : Alias) (v : α) : Cell α := ⟨v⟩

/-- `alias::one`: `pub fn one<'a, T: Copy>(data: &'a mut T) -> &'a Cell<T>`
is `mem::transmute(data)`: the exclusive storage is reinterpreted, bit for
bit, as a cell over the same storage.  In the embedding the storage contents
`v` become a cell holding `v`. -/
def one (v : α) : Cell α := ⟨v⟩

/-- When the aliasable view's lifetime ends, the original variable is the
very same storage the cell wrapped, so it holds the cell's final
contents. -/
def readBack (c : Cell α) : α := c.value

/-- A single-cell access performed by some alias holder. -/
inductive CellOp (α : Type) where
  | get (who : Alias)
  | set (who : Alias) (v : α)
  deriving Repr, DecidableEq

/-- Whether an access is a read. -/
def CellOp.isGet : CellOp α → Bool
  | .get _ => true
  | .set _ _ => false

/-- Effect of one access on the shared storage: a read leaves it unchanged,
a write through any alias overwrites it. -/
def runCellOp (c : Cell α) : CellOp α → Cell α
  | .get _ => c
  | .set a v => c.setVia a v

/-- Effect of a sequence of accesses, performed by arbitrary alias holders
in program order. -/
def runCellOps (c : Cell α) (ops : List (CellOp α)) : Cell α :=
  ops.foldl runCellOp c

/-- The value of the last `set` in an access sequence, if any. -/
def lastSetValue : List (CellOp α) → Option α
  | [] => none
  | .get _ :: ops => lastSetValue ops
  | .set _ v :: ops => (lastSetValue ops).getD v |> some

/-- The reported error of a bounds-checked slice access, carrying the
offending index and the length (as in Rust's
"index out of bounds: the len is N but the index is i" panic). -/
structure RangeError where
  idx : Nat
  len : Nat
  deriving Repr, DecidableEq

/-- `alias::slice`:
`pub fn slice<'a, T: Copy>(data: &'a mut [T]) -> &'a [Cell<T>]` is
`mem::transmute(data)`: the exclusive sequence storage is reinterpreted in
place as a sequence of cells, one per element, same order, same length. -/
def slice (data : List α) : List (Cell α) := data.map Cell.mk

/-- Bounds-checked indexing `view[i]` of the slice view: yields the cell at
position `i`, or reports a range error without touching storage. -/
def sliceIndex (s : List (Cell α)) (i : Nat) : Except RangeError (Cell α) :=
  match s[i]? with
  | some c => .ok c
  | none => .error ⟨i, s.length⟩

/-- `view[i].get()` through alias `a`: bounds-checked indexing followed by a
read of the shared element storage. -/
def sliceGetAt (s : List (Cell α)) (i : Nat) (a : Alias) : Except RangeError α :=
  (sliceIndex s i).map (fun c => c.getVia a)

/-- `view[i].set(v)` through alias `a`: bounds-checked indexing followed by
a write to the shared element storage; the resulting storage state is
returned.  An out-of-range index reports the error before any write. -/
def sliceSetAt (s : List (Cell α)) (i : Nat) (a : Alias) (v : α) :
    Except RangeError (List (Cell α)) :=
  (sliceIndex s i).map (fun c => s.set i (c.setVia a v))

/-- The storage state after an access that may have panicked: a panic
unwinds before any write, leaving the storage as it was. -/
def stateAfter (r : Except RangeError (List (Cell α))) (s : List (Cell α)) :
    List (Cell α) :=
  match r with
  | .ok s' => s'
  | .error _ => s

/-- A slice-view access performed by some alias holder at some index. -/
inductive SliceOp (α : Type) where
  | get (who : Alias) (i : Nat)
  | set (who : Alias) (i : Nat) (v : α)
  deriving Repr, DecidableEq

/-- The index an access touches. -/
def SliceOp.idx : SliceOp α → Nat
  | .get _ i => i
  | .set _ i _ => i

/-- Effect of one slice-view access on the shared storage: a read leaves the
storage unchanged, a write through any alias overwrites one element;
out-of-range accesses report a range error. -/
def runSliceOp (s : List (Cell α)) : SliceOp α → Except RangeError (List (Cell α))
  | .get a i => (sliceGetAt s i a).map (fun _ => s)
  | .set a i v => sliceSetAt s i a v

/-- `one` applied independently to each element of the sequence, following
the spec sentence "`slice` is logically `one` applied independently,
per-element, across a contiguous region". -/
def onePerElement (data : List α) : List (Cell α) := data.map one

/-! ## Helper lemmas -/

theorem slice_length_eq (s : List α) : (slice s).length = s.length := by
  simp [slice]

theorem sliceIndex_of_lt (s : List α) (i : Nat) (h : i < s.length) :
    sliceIndex (slice s) i = .ok ⟨s[i]⟩ := by
  simp [sliceIndex, slice, List.getElem?_map, List.getElem?_eq_getElem h]

theorem sliceIndex_of_ge (s : List (Cell α)) (i : Nat) (h : s.length ≤ i) :
    sliceIndex s i = .error ⟨i, s.length⟩ := by
  simp [sliceIndex, List.getElem?_eq_none h]

theorem sliceGetAt_slice_of_lt (s : List α) (i : Nat) (h : i < s.length)
    (a : Alias) : sliceGetAt (slice s) i a = .ok s[i] := by
  simp [sliceGetAt, sliceIndex_of_lt s i h, Except.map, Cell.getVia]

theorem runCellOps_all_get (c : Cell α) (ops : List (CellOp α))
    (h : ∀ op ∈ ops, op.isGet = true) : runCellOps c ops = c := by
  induction ops with
  | nil => rfl
  | cons op ops ih =>
    cases op with
    | get a => exact ih (fun o ho => h o (List.mem_cons_of_mem _ ho))
    | set a v =>
      have := h (.set a v) (List.mem_cons_self _ _)
      simp [CellOp.isGet] at this

theorem runCellOps_value (c : Cell α) (ops : List (CellOp α)) :
    (runCellOps c ops).value = (lastSetValue ops).getD c.value := by
  induction ops generalizing c with
  | nil => rfl
  | cons op ops ih =>
    cases op with
    | get a =>
      simpa [runCellOps, List.foldl_cons, runCellOp, lastSetValue]
        using ih c
    | set a v =>
      simp only [runCellOps, List.foldl_cons, runCellOp, Cell.setVia,
        lastSetValue, Option.getD_some]
      exact ih ⟨v⟩

/-! ## Claim theorems -/

/-- C1: after converting exclusive storage holding `v1` with `alias::one`
and calling `set(v2)` through any alias `a` of the returned cell, a
subsequent `get()` through every other alias `b` of that cell returns
`v2`. -/
theorem one_set_then_get_other_alias {α : Type} (v1 v2 : α) (a b : Alias)
    (h : a ≠ b) : (((one v1).setVia a v2).getVia b) = v2 := rfl

theorem one_set_then_get_other_alias_witness :
    (0 : Alias) ≠ 1 ∧ (((one (5 : Nat)).setVia 0 7).getVia 1) = 7 :=
  ⟨by decide, one_set_then_get_other_alias 5 7 0 1 (by decide)⟩

/-- C2: for every slice `s` and in-range index `i`, indexing the view
returned by `alias::slice` at `i` yields the mutation cell for the original
element at position `i`, and `get()` on that cell immediately after
conversion returns `s[i]`: the conversion changes no contents. -/
theorem slice_index_yields_original_element {α : Type} (s : List α) (i : Nat)
    (h : i < s.length) (a : Alias) :
    sliceIndex (slice s) i = .ok ⟨s[i]⟩ ∧
    sliceGetAt (slice s) i a = .ok s[i] :=
  ⟨sliceIndex_of_lt s i h, sliceGetAt_slice_of_lt s i h a⟩

theorem slice_index_yields_original_element_witness :
    1 < ([4, 5, 6] : List Nat).length ∧
    (sliceIndex (slice [4, 5, 6]) 1 = .ok ⟨5⟩ ∧
     sliceGetAt (slice ([4, 5, 6] : List Nat)) 1 0 = .ok 5) :=
  ⟨by decide, slice_index_yields_original_element [4, 5, 6] 1 (by decide) 0⟩

/-- C3: last-write-wins on a single converted cell: if alias `a` calls
`set(x)` and then alias `b` calls `set(y)`, every subsequent `get()`
through any alias `d` (in particular through `a` or `b`) returns `y`. -/
theorem one_last_write_wins {α : Type} (v x y : α) (a b d : Alias) :
    (((one v).setVia a x).setVia b y).getVia d = y := rfl

/-- C4: accessing the view returned by `alias::slice` at an out-of-range
index fails with a reported range error — for both `get` and `set` — and
the failed `set` leaves the value readable at every in-range index
unchanged (equal to the original element). -/
theorem slice_oob_reported_no_mutation {α : Type} (s : List α) (i : Nat)
    (h : s.length ≤ i) (a : Alias) (v : α) (j : Nat) (hj : j < s.length)
    (b : Alias) :
    sliceSetAt (slice s) i a v = .error ⟨i, s.length⟩ ∧
    sliceGetAt (slice s) i a = .error ⟨i, s.length⟩ ∧
    sliceGetAt (stateAfter (sliceSetAt (slice s) i a v) (slice s)) j b =
      .ok s[j] := by
  have hidx : sliceIndex (slice s) i = .error ⟨i, s.length⟩ := by
    have := sliceIndex_of_ge (slice s) i (by simpa [slice_length_eq] using h)
    simpa [slice_length_eq] using this
  refine ⟨?_, ?_, ?_⟩
  · simp [sliceSetAt, hidx, Except.map]
  · simp [sliceGetAt, hidx, Except.map]
  · simp [sliceSetAt, hidx, Except.map, stateAfter,
      sliceGetAt_slice_of_lt s j hj b]

theorem slice_oob_reported_no_mutation_witness :
    (([4, 5] : List Nat).length ≤ 3 ∧ 0 < ([4, 5] : List Nat).length) ∧
    (sliceSetAt (slice ([4, 5] : List Nat)) 3 0 9 = .error ⟨3, 2⟩ ∧
     sliceGetAt (slice ([4, 5] : List Nat)) 3 0 = .error ⟨3, 2⟩ ∧
     sliceGetAt
       (stateAfter (sliceSetAt (slice ([4, 5] : List Nat)) 3 0 9)
         (slice [4, 5])) 0 1 = .ok 4) :=
  ⟨by decide,
   slice_oob_reported_no_mutation [4, 5] 3 (by decide) 0 9 0 (by decide) 1⟩

/-- C5: per-element independence of the slice view: any access (`get` or
`set`, through any alias) touching index `i` of the shared storage leaves
the value readable at every index `j ≠ i` unchanged. -/
theorem slice_frame_independence {α : Type} (cs : List (Cell α))
    (op : SliceOp α) (j : Nat) (h : op.idx ≠ j) (b : Alias) :
    sliceGetAt (stateAfter (runSliceOp cs op) cs) j b = sliceGetAt cs j b := by
  cases op with
  | get a i =>
    cases hg : sliceGetAt cs i a with
    | ok w => simp [runSliceOp, hg, Except.map, stateAfter]
    | error e => simp [runSliceOp, hg, Except.map, stateAfter]
  | set a i v =>
    simp only [SliceOp.idx] at h
    cases hi : cs[i]? with
    | none => simp [runSliceOp, sliceSetAt, sliceIndex, hi, Except.map, stateAfter]
    | some c =>
      simp only [runSliceOp, sliceSetAt, sliceIndex, hi, Except.map, stateAfter]
      simp [sliceGetAt, sliceIndex, List.getElem?_set_ne h]

theorem slice_frame_independence_witness :
    (SliceOp.set 0 0 (9 : Nat)).idx ≠ 1 ∧
    sliceGetAt
      (stateAfter (runSliceOp (slice ([4, 5] : List Nat)) (.set 0 0 9))
        (slice [4, 5])) 1 2 = sliceGetAt (slice ([4, 5] : List Nat)) 1 2 :=
  ⟨by decide, slice_frame_independence (slice [4, 5]) (.set 0 0 9) 1 (by decide) 2⟩

/-- C6: `alias::slice` is observationally `alias::one` applied
independently to each element: the view equals the per-element conversion,
indexing it at any position yields `one` of that element, and `get`/`set`
at any position behave exactly as the cell `one` would produce for that
element alone, with out-of-range positions reporting a range error. -/
theorem slice_is_one_per_element {α : Type} (data : List α) :
    slice data = onePerElement data ∧
    (∀ i : Nat, (slice data)[i]? = (data[i]?).map one) ∧
    (∀ (i : Nat) (a : Alias), sliceGetAt (slice data) i a =
      match data[i]? with
      | some w => .ok ((one w).getVia a)
      | none => .error ⟨i, data.length⟩) ∧
    (∀ (i : Nat) (a : Alias) (v : α), sliceSetAt (slice data) i a v =
      match data[i]? with
      | some w => .ok (slice (data.set i (readBack ((one w).setVia a v))))
      | none => .error ⟨i, data.length⟩) := by
  refine ⟨rfl, ?_, ?_, ?_⟩
  · intro i
    simp only [slice, List.getElem?_map]
    cases data[i]? <;> rfl
  · intro i a
    cases hi : data[i]? with
    | none =>
      simp [sliceGetAt, sliceIndex, slice, List.getElem?_map, hi, Except.map]
    | some w =>
      simp [sliceGetAt, sliceIndex, slice, List.getElem?_map, hi, Except.map,
        Cell.getVia, one]
  · intro i a v
    cases hi : data[i]? with
    | none =>
      simp [sliceSetAt, sliceIndex, slice, List.getElem?_map, hi, Except.map]
    | some w =>
      simp [sliceSetAt, sliceIndex, slice, List.getElem?_map, hi, Except.map,
        Cell.setVia, one, readBack, List.map_set]

/-- C7: idempotence of `get`: on a cell produced by `alias::one` (or any
cell state), a sequence of accesses containing no `set` leaves the cell
unchanged and every `get` in it returns the same value through every
alias; likewise a `get` on a cell of the slice view leaves the storage
unchanged, so repeated `get`s at the same index return the same value. -/
theorem get_idempotent {α : Type} (c : Cell α) (ops : List (CellOp α))
    (h : ∀ op ∈ ops, op.isGet = true) (a b : Alias) (cs : List (Cell α))
    (i : Nat) :
    (runCellOps c ops).getVia a = c.getVia b ∧
    stateAfter (runSliceOp cs (.get a i)) cs = cs ∧
    sliceGetAt (stateAfter (runSliceOp cs (.get a i)) cs) i b =
      sliceGetAt cs i a := by
  have hst : stateAfter (runSliceOp cs (.get a i)) cs = cs := by
    cases hg : sliceGetAt cs i a with
    | ok w => simp [runSliceOp, hg, Except.map, stateAfter]
    | error e => simp [runSliceOp, hg, Except.map, stateAfter]
  refine ⟨?_, hst, ?_⟩
  · rw [runCellOps_all_get c ops h]; rfl
  · rw [hst]
    simp [sliceGetAt, Except.map, Cell.getVia]

theorem get_idempotent_witness :
    (∀ op ∈ ([.get 0, .get 1] : List (CellOp Nat)), op.isGet = true) ∧
    ((runCellOps (one 3) [.get 0, .get 1]).getVia 0 = (one (3 : Nat)).getVia 1 ∧
     stateAfter (runSliceOp (slice ([4] : List Nat)) (.get 0 0)) (slice [4]) =
       slice [4] ∧
     sliceGetAt
       (stateAfter (runSliceOp (slice ([4] : List Nat)) (.get 0 0))
         (slice [4])) 0 1 = sliceGetAt (slice ([4] : List Nat)) 0 0) :=
  ⟨by decide, get_idempotent (one 3) [.get 0, .get 1] (by decide) 0 1 (slice [4]) 0⟩

/-- C8: `alias::one` is total at its interface: for every value of an
eligible type the conversion is defined, has no error result, and is a
pure reinterpretation — the produced cell immediately yields the original
contents through every alias and wraps exactly the original storage. -/
theorem one_total_no_failure {α : Type} (v : α) (a : Alias) :
    (one v).getVia a = v ∧ readBack (one v) = v := ⟨rfl, rfl⟩

/-- C9: write-back persistence: the cell returned by `alias::one` wraps the
original storage itself, so after any sequence of `get`/`set` accesses
through arbitrary aliases, the original variable holds the last value
passed to `set`, or the initial value if no `set` occurred. -/
theorem one_write_back_persistence {α : Type} (v : α)
    (ops : List (CellOp α)) :
    readBack (runCellOps (one v) ops) = (lastSetValue ops).getD v :=
  runCellOps_value (one v) ops

/-- C10: `alias::slice` is total for every input length including zero, the
returned view always has the input's length, and on the empty slice every
element access — `get` or `set`, at any index — fails with a range
error. -/
theorem slice_total_length_preserving {α : Type} (s : List α) (i : Nat)
    (a : Alias) (v : α) :
    (slice s).length = s.length ∧
    slice ([] : List α) = [] ∧
    sliceGetAt (slice ([] : List α)) i a = .error ⟨i, 0⟩ ∧
    sliceSetAt (slice ([] : List α)) i a v = .error ⟨i, 0⟩ := by
  refine ⟨slice_length_eq s, rfl, ?_, ?_⟩
  · simp [sliceGetAt, sliceIndex, slice, Except.map]
  · simp [sliceSetAt, sliceIndex, slice, Except.map]

end AliasCrate
